import Mathlib

/-
Verification of the context-budget enforcement and answer-assembly
subsystem of the WebPageAI service (src/main.py).

A Python `dict[str, str]` is modelled as an association list in insertion
order whose keys are pairwise distinct.  Python integers are modelled as
`Int` where subtraction occurs, string lengths as `String.length` (both
count Unicode code points).  The serialized size `len(str(site_data))` is
modelled entry by entry, assuming page strings need no repr escapes, so
`repr(s)` contributes `len(s) + 2` characters (the two quotes).
-/

namespace WebPageAI

/-- A corpus entry: a page URL paired with its extracted text. -/
abbrev Entry := String × String

/-- The keys of a dict, in insertion order (`list(d.keys())`). -/
def keys (d : List Entry) : List String := d.map Prod.fst

/-- The defining property of a Python dict: keys are pairwise distinct. -/
abbrev keysNodup (d : List Entry) : Prop := (keys d).Nodup

/-- The process-wide context budget constant from src/main.py. -/
def MAX_TEXT_LENGTH : Nat := 196000

/-- Length of the Python repr of a string needing no escapes: two quote
characters plus the characters themselves. -/
def pyReprLen (s : String) : Nat := s.length + 2

/-- Characters one entry contributes inside the str of a dict:
the repr of the key, the two characters of the colon-space, and the repr
of the value. -/
def entryPartLen (e : Entry) : Nat := pyReprLen e.1 + 2 + pyReprLen e.2

/-- Models `len(str(site_data))`: the two braces, each entry part, and a
two-character comma-space separator between consecutive parts. -/
def dictStrLen : List Entry → Nat
  | [] => 2
  | e :: es => 2 + (((e :: es).map entryPartLen).sum + 2 * es.length)

/-- Total characters one entry accounts for in a nonempty dict's str:
key, value, quotes and punctuation. -/
def entrySize (e : Entry) : Nat := e.1.length + e.2.length + 8

/-- Stable insertion into a list already sorted by text length descending:
`x` moves past `y` only when `y`'s text is strictly longer, so among
equal lengths the earlier element stays first, as Python's stable sort
guarantees. -/
def insertByLen (x : Entry) : List Entry → List Entry
  | [] => [x]
  | y :: ys => if x.2.length < y.2.length then y :: insertByLen x ys else x :: y :: ys

/-- Models `sorted(site_data.items(), key=lambda x: len(x[1]), reverse=True)`:
a stable sort of the dict items by text length, longest first. -/
def sortByLenDesc : List Entry → List Entry
  | [] => []
  | e :: es => insertByLen e (sortByLenDesc es)

/-- Models `del d[url]`: removes the (unique) entry carrying the key. -/
def delKey : List Entry → String → List Entry
  | [], _ => []
  | e :: es, k => if e.1 = k then es else e :: delKey es k

/-- The eviction loop of `_enforce_site_data_limit`: walks the sorted
snapshot of the items; while the running total still exceeds the budget,
deletes the entry from the dict and decrements the total by the entry's
text length; breaks as soon as the total is at or under budget. -/
def enforceLoop (budget : Int) : List Entry → Int → List Entry → List Entry
  | [], _, d => d
  | e :: rest, total, d =>
    if total ≤ budget then d
    else enforceLoop budget rest (total - (e.2.length : Int)) (delKey d e.1)

/-- Models `_enforce_site_data_limit(site_data)` with the budget as a
parameter: computes the serialized size of the dict and, when it exceeds
the budget, runs the eviction loop over the items sorted by text length
descending. -/
def enforce_site_data_limit (budget : Int) (site_data : List Entry) : List Entry :=
  if (dictStrLen site_data : Int) > budget then
    enforceLoop budget (sortByLenDesc site_data) (dictStrLen site_data : Int) site_data
  else site_data

/-- The sequence of entries the eviction loop deletes, in deletion order. -/
def evictSeq (budget : Int) : List Entry → Int → List Entry
  | [], _ => []
  | e :: rest, total =>
    if total ≤ budget then []
    else e :: evictSeq budget rest (total - (e.2.length : Int))

/-- The entries `enforce_site_data_limit` evicts on a given corpus, in
eviction order (empty when the size check does not trigger). -/
def evictedEntries (budget : Int) (d : List Entry) : List Entry :=
  if (dictStrLen d : Int) > budget then
    evictSeq budget (sortByLenDesc d) (dictStrLen d : Int)
  else []

/-- Sum of the text lengths of a list of entries. -/
def textLenSum (l : List Entry) : Nat := (l.map fun e => e.2.length).sum

/-- State-passing rendering of `_enforce_site_data_limit` that carries the
caller's dict alongside the private copy (`site_data.copy()`) that every
`del` acts on. -/
def enforceLoopSt (budget : Int) :
    List Entry → Int → List Entry × List Entry → List Entry × List Entry
  | [], _, st => st
  | e :: rest, total, st =>
    if total ≤ budget then st
    else enforceLoopSt budget rest (total - (e.2.length : Int)) (st.1, delKey st.2 e.1)

/-- The state-passing enforcement entry point: the first component is the
caller's dict, the second the working copy being trimmed. -/
def enforceSt (budget : Int) (site_data : List Entry) : List Entry × List Entry :=
  if (dictStrLen site_data : Int) > budget then
    enforceLoopSt budget (sortByLenDesc site_data) (dictStrLen site_data : Int)
      (site_data, site_data)
  else (site_data, site_data)

/-- The fields of the LLM reply that the `/ask` handler consumes: answer
content, refusal flag, and the two usage counters. -/
structure LLMReply where
  content : String
  refusal : Bool
  prompt_tokens : Option Nat
  completion_tokens : Option Nat
deriving DecidableEq

/-- The client-visible failures of the `/ask` handler (both HTTP 400). -/
inductive AskError where
  | questionTooLong
  | aiRefused
deriving DecidableEq

/-- The success payload of the `/ask` handler (the `response` object). -/
structure AskResponse where
  user_question : String
  answer : String
  input_tokens : Option Nat
  output_tokens : Option Nat
  sources : List String
deriving DecidableEq

/-- Models the `/ask` handler `ask_question`: rejects questions longer than
500 characters, trims the corpus to the budget, and assembles the response
from the LLM reply, failing when the reply carries the refusal flag.  The
LLM reply is an oracle parameter standing for the remote call. -/
def ask_question (site_data : List Entry) (budget : Int) (question : String)
    (reply : LLMReply) : Except AskError AskResponse :=
  if question.length > 500 then Except.error AskError.questionTooLong
  else
    let site_data_for_open_ai := enforce_site_data_limit budget site_data
    if reply.refusal then Except.error AskError.aiRefused
    else Except.ok
      { user_question := question
        answer := reply.content
        input_tokens := reply.prompt_tokens
        output_tokens := reply.completion_tokens
        sources := keys site_data_for_open_ai }

/-- Example corpus used by the witnesses: serialized size 19 + 11 = 30. -/
def exCorpus : List Entry := [("a", "xxxxxxxxxx"), ("b", "yy")]

/-- A non-refusing LLM reply used by the witnesses. -/
def replyOk : LLMReply :=
  { content := "ans", refusal := false, prompt_tokens := some 5, completion_tokens := some 7 }

/-- A refusing LLM reply used by the witnesses. -/
def replyRefused : LLMReply :=
  { content := "", refusal := true, prompt_tokens := none, completion_tokens := none }

/-- C2: a corpus already within budget is returned unchanged. -/
theorem claim_C2 (budget : Int) (d : List Entry)
    (h : (dictStrLen d : Int) ≤ budget) :
    enforce_site_data_limit budget d = d := by
  rw [enforce_site_data_limit, if_neg (not_lt.mpr h)]

/-- Witness for C2 at a concrete in-budget corpus. -/
theorem claim_C2_witness :
    (dictStrLen exCorpus : Int) ≤ 100 ∧
      enforce_site_data_limit 100 exCorpus = exCorpus :=
  ⟨by decide, claim_C2 100 exCorpus (by decide)⟩

/-- A 500-character question. -/
def q500 : String := String.mk (List.replicate 500 'a')

/-- A 501-character question. -/
def q501 : String := String.mk (List.replicate 501 'a')

/-- C7: the handler rejects with the too-long error exactly when the
question exceeds 500 characters. -/
theorem claim_C7 (d : List Entry) (budget : Int) (q : String) (reply : LLMReply) :
    ask_question d budget q reply = Except.error AskError.questionTooLong ↔
      500 < q.length := by
  unfold ask_question
  by_cases h : 500 < q.length
  · simp [h]
  · rw [if_neg h]
    simp only [h, iff_false]
    by_cases hr : reply.refusal
    · rw [if_pos hr]
      intro hc
      exact AskError.noConfusion (Except.error.inj hc)
    · rw [if_neg hr]
      intro hc
      exact Except.noConfusion hc

set_option maxRecDepth 4000 in
/-- Witness for C7: a 501-character question is rejected, a 500-character
question is not. -/
theorem claim_C7_witness :
    ask_question exCorpus 25 q501 replyOk = Except.error AskError.questionTooLong ∧
      ask_question exCorpus 25 q500 replyOk ≠ Except.error AskError.questionTooLong :=
  ⟨(claim_C7 exCorpus 25 q501 replyOk).mpr (by decide),
   fun h => absurd ((claim_C7 exCorpus 25 q500 replyOk).mp h) (by decide)⟩

/-- C10: the empty question passes the length check and the request runs
the full pipeline, producing a success payload when the reply does not
refuse. -/
theorem claim_C10 (d : List Entry) (budget : Int) (reply : LLMReply)
    (h : reply.refusal = false) :
    ask_question d budget "" reply = Except.ok
      { user_question := ""
        answer := reply.content
        input_tokens := reply.prompt_tokens
        output_tokens := reply.completion_tokens
        sources := keys (enforce_site_data_limit budget d) } := by
  unfold ask_question
  rw [if_neg (by decide : ¬ (500 < String.length "")), h]
  rfl

/-- Witness for C10 at a concrete corpus and non-refusing reply. -/
theorem claim_C10_witness :
    replyOk.refusal = false ∧
      ask_question exCorpus 25 "" replyOk = Except.ok
        { user_question := ""
          answer := replyOk.content
          input_tokens := replyOk.prompt_tokens
          output_tokens := replyOk.completion_tokens
          sources := keys (enforce_site_data_limit 25 exCorpus) } :=
  ⟨rfl, claim_C10 exCorpus 25 replyOk rfl⟩

/-- C6: once past validation, the handler fails with the refusal error
exactly when the reply's refusal flag is true, and in that case no success
payload is returned. -/
theorem claim_C6 (d : List Entry) (budget : Int) (q : String) (reply : LLMReply)
    (hq : q.length ≤ 500) :
    (ask_question d budget q reply = Except.error AskError.aiRefused ↔
      reply.refusal = true) ∧
    (reply.refusal = true → ∀ r, ask_question d budget q reply ≠ Except.ok r) := by
  unfold ask_question
  rw [if_neg (by omega : ¬ (500 < q.length))]
  by_cases hr : reply.refusal
  · rw [if_pos hr]
    exact ⟨⟨fun _ => hr, fun _ => rfl⟩, fun _ r hc => Except.noConfusion hc⟩
  · rw [if_neg hr]
    constructor
    · constructor
      · intro hc
        exact Except.noConfusion hc
      · intro hc
        exact absurd hc hr
    · intro hc
      exact absurd hc hr

/-- Witness for C6 at a concrete refusing reply. -/
theorem claim_C6_witness :
    String.length "q" ≤ 500 ∧
      ((ask_question exCorpus 25 "q" replyRefused = Except.error AskError.aiRefused ↔
        replyRefused.refusal = true) ∧
      (replyRefused.refusal = true →
        ∀ r, ask_question exCorpus 25 "q" replyRefused ≠ Except.ok r)) :=
  ⟨by decide, claim_C6 exCorpus 25 "q" replyRefused (by decide)⟩

/-- C5: on success, the sources field is exactly the key sequence of the
trimmed corpus that was sent to the LLM, in its key order. -/
theorem claim_C5 (d : List Entry) (budget : Int) (q : String) (reply : LLMReply)
    (r : AskResponse) (hq : q.length ≤ 500)
    (h : ask_question d budget q reply = Except.ok r) :
    r.sources = keys (enforce_site_data_limit budget d) := by
  unfold ask_question at h
  rw [if_neg (by omega : ¬ (500 < q.length))] at h
  by_cases hr : reply.refusal
  · rw [if_pos hr] at h
    exact Except.noConfusion h
  · rw [if_neg hr] at h
    have hh := Except.ok.inj h
    rw [← hh]

/-- The concrete success payload of the C5 witness: the trimmed corpus has
dropped the long entry, so the sources are the single remaining key. -/
def rEx : AskResponse :=
  { user_question := "q", answer := "ans", input_tokens := some 5,
    output_tokens := some 7, sources := ["b"] }

/-- Witness for C5: a run where trimming happened, whose sources list the
trimmed keys only. -/
theorem claim_C5_witness :
    String.length "q" ≤ 500 ∧
      ask_question exCorpus 25 "q" replyOk = Except.ok rEx ∧
      rEx.sources = keys (enforce_site_data_limit 25 exCorpus) :=
  ⟨by decide, by rfl, claim_C5 exCorpus 25 "q" replyOk rEx (by decide) (by rfl)⟩

lemma insertByLen_perm (x : Entry) (l : List Entry) :
    List.Perm (insertByLen x l) (x :: l) := by
  induction l with
  | nil => exact List.Perm.refl _
  | cons y ys ih =>
    rw [insertByLen]
    by_cases h : x.2.length < y.2.length
    · rw [if_pos h]
      exact List.Perm.trans (List.Perm.cons y ih) (List.Perm.swap x y ys)
    · rw [if_neg h]

lemma sortByLenDesc_perm (l : List Entry) : List.Perm (sortByLenDesc l) l := by
  induction l with
  | nil => exact List.Perm.refl _
  | cons e es ih =>
    rw [sortByLenDesc]
    exact List.Perm.trans (insertByLen_perm e (sortByLenDesc es)) (List.Perm.cons e ih)

lemma keysNodup_tail (a : Entry) (es : List Entry) (h : keysNodup (a :: es)) :
    keysNodup es := by
  simp only [keysNodup, keys, List.map_cons, List.nodup_cons] at h
  exact h.2

lemma head_key_not_mem (a : Entry) (es : List Entry) (h : keysNodup (a :: es)) :
    a.1 ∉ keys es := by
  simp only [keysNodup, keys, List.map_cons, List.nodup_cons] at h
  exact h.1

lemma mem_tail_of_key_ne (a : Entry) (es : List Entry) (e : Entry)
    (he : e ∈ a :: es) (ha : e.1 ≠ a.1) : e ∈ es := by
  rcases List.mem_cons.mp he with h1 | h2
  · exact absurd (by rw [h1]) ha
  · exact h2

lemma mem_head_of_key (a : Entry) (es : List Entry) (e : Entry)
    (hn : keysNodup (a :: es)) (he : e ∈ a :: es) (hk : e.1 = a.1) : e = a := by
  rcases List.mem_cons.mp he with h1 | h2
  · exact h1
  · exact absurd (hk ▸ List.mem_map.mpr ⟨e, h2, rfl⟩) (head_key_not_mem a es hn)

lemma mem_of_mem_delKey (d : List Entry) (k : String) (f : Entry)
    (h : f ∈ delKey d k) : f ∈ d := by
  induction d with
  | nil => simp [delKey] at h
  | cons e es ih =>
    rw [delKey] at h
    by_cases he : e.1 = k
    · rw [if_pos he] at h
      exact List.mem_cons_of_mem e h
    · rw [if_neg he] at h
      rcases List.mem_cons.mp h with rfl | h2
      · exact List.mem_cons_self f es
      · exact List.mem_cons_of_mem e (ih h2)

lemma keysNodup_delKey (d : List Entry) (k : String) (h : keysNodup d) :
    keysNodup (delKey d k) := by
  induction d with
  | nil => simp [delKey, keysNodup, keys]
  | cons e es ih =>
    rw [delKey]
    by_cases he : e.1 = k
    · rw [if_pos he]
      exact keysNodup_tail e es h
    · rw [if_neg he]
      simp only [keysNodup, keys, List.map_cons, List.nodup_cons]
      constructor
      · intro hc
        rcases List.mem_map.mp hc with ⟨f, hf, hpf⟩
        exact head_key_not_mem e es h
          (List.mem_map.mpr ⟨f, mem_of_mem_delKey es k f hf, hpf⟩)
      · exact ih (keysNodup_tail e es h)

lemma delKey_cons_perm (d : List Entry) (e : Entry) (hn : keysNodup d) (he : e ∈ d) :
    List.Perm (e :: delKey d e.1) d := by
  induction d with
  | nil => simp at he
  | cons a es ih =>
    rw [delKey]
    by_cases ha : a.1 = e.1
    · rw [if_pos ha]
      rw [mem_head_of_key a es e hn he ha.symm]
    · rw [if_neg ha]
      have he2 : e ∈ es := mem_tail_of_key_ne a es e he (fun hc => ha hc.symm)
      exact List.Perm.trans (List.Perm.swap a e (delKey es e.1))
        (List.Perm.cons a (ih (keysNodup_tail a es hn) he2))

lemma sum_entrySize_delKey (d : List Entry) (e : Entry) (hn : keysNodup d)
    (he : e ∈ d) :
    ((delKey d e.1).map entrySize).sum + entrySize e = (d.map entrySize).sum := by
  induction d with
  | nil => simp at he
  | cons a es ih =>
    rw [delKey]
    by_cases ha : a.1 = e.1
    · rw [if_pos ha, mem_head_of_key a es e hn he ha.symm]
      simp only [List.map_cons, List.sum_cons]
      omega
    · rw [if_neg ha]
      have he2 : e ∈ es := mem_tail_of_key_ne a es e he (fun hc => ha hc.symm)
      have hsum := ih (keysNodup_tail a es hn) he2
      simp only [List.map_cons, List.sum_cons]
      omega

lemma sum_entryPartLen_add (l : List Entry) :
    (l.map entrySize).sum = (l.map entryPartLen).sum + 2 * l.length := by
  induction l with
  | nil => rfl
  | cons e es ih =>
    have he : entrySize e = entryPartLen e + 2 := by
      simp only [entrySize, entryPartLen, pyReprLen]
      omega
    simp only [List.map_cons, List.sum_cons, List.length_cons]
    omega

lemma dictStrLen_eq_sum (l : List Entry) (h : l ≠ []) :
    dictStrLen l = (l.map entrySize).sum := by
  cases l with
  | nil => exact absurd rfl h
  | cons e es =>
    rw [dictStrLen, sum_entryPartLen_add]
    simp only [List.length_cons]
    omega

lemma dictStrLen_delKey_le (d : List Entry) (e : Entry) (hn : keysNodup d)
    (he : e ∈ d) :
    dictStrLen (delKey d e.1) + e.2.length ≤ dictStrLen d := by
  have hsum := sum_entrySize_delKey d e hn he
  have hd : d ≠ [] := List.ne_nil_of_mem he
  have hes : entrySize e = e.1.length + e.2.length + 8 := rfl
  rw [dictStrLen_eq_sum d hd]
  by_cases hdel : delKey d e.1 = []
  · rw [hdel]
    rw [hdel] at hsum
    simp only [List.map_nil, List.sum_nil, Nat.zero_add] at hsum
    show 2 + e.2.length ≤ _
    omega
  · rw [dictStrLen_eq_sum _ hdel]
    omega

lemma enforceLoop_le_or_nil (budget : Int) (te : List Entry) :
    ∀ (total : Int) (d : List Entry), List.Perm te d → keysNodup d →
      (dictStrLen d : Int) ≤ total →
      (dictStrLen (enforceLoop budget te total d) : Int) ≤ budget ∨
        enforceLoop budget te total d = [] := by
  induction te with
  | nil =>
    intro total d hp _ _
    right
    rw [enforceLoop]
    have hlen := hp.length_eq
    simp only [List.length_nil] at hlen
    exact List.eq_nil_of_length_eq_zero hlen.symm
  | cons e rest ih =>
    intro total d hp hn hle
    rw [enforceLoop]
    by_cases h : total ≤ budget
    · rw [if_pos h]
      left
      omega
    · rw [if_neg h]
      have he : e ∈ d := hp.subset (List.mem_cons_self e rest)
      have hperm2 : List.Perm rest (delKey d e.1) :=
        (hp.trans (delKey_cons_perm d e hn he).symm).cons_inv
      have hsz := dictStrLen_delKey_le d e hn he
      exact ih (total - e.2.length) (delKey d e.1) hperm2
        (keysNodup_delKey d e.1 hn) (by omega)

/-- C1: when the corpus's serialized size exceeds the budget, the enforcer
returns a mapping of serialized size at most the budget, or else the empty
mapping. -/
theorem claim_C1 (budget : Int) (d : List Entry) (hn : keysNodup d)
    (hgt : (dictStrLen d : Int) > budget) :
    (dictStrLen (enforce_site_data_limit budget d) : Int) ≤ budget ∨
      enforce_site_data_limit budget d = [] := by
  rw [enforce_site_data_limit, if_pos hgt]
  exact enforceLoop_le_or_nil budget (sortByLenDesc d) (dictStrLen d : Int) d
    (sortByLenDesc_perm d) hn le_rfl

/-- Witness for C1 at a concrete over-budget corpus. -/
theorem claim_C1_witness :
    keysNodup exCorpus ∧ (dictStrLen exCorpus : Int) > 25 ∧
      ((dictStrLen (enforce_site_data_limit 25 exCorpus) : Int) ≤ 25 ∨
        enforce_site_data_limit 25 exCorpus = []) :=
  ⟨by decide, by decide, claim_C1 25 exCorpus (by decide) (by decide)⟩

/-- C4: enforcement is deterministic: identical corpora and budgets yield
identical results and identical eviction sequences. -/
theorem claim_C4 (b₁ b₂ : Int) (d₁ d₂ : List Entry) (hb : b₁ = b₂) (hd : d₁ = d₂) :
    enforce_site_data_limit b₁ d₁ = enforce_site_data_limit b₂ d₂ ∧
      evictedEntries b₁ d₁ = evictedEntries b₂ d₂ := by
  subst hb
  subst hd
  exact ⟨rfl, rfl⟩

/-- Witness for C4 at a concrete corpus and budget. -/
theorem claim_C4_witness :
    (25 : Int) = 25 ∧ exCorpus = exCorpus ∧
      (enforce_site_data_limit 25 exCorpus = enforce_site_data_limit 25 exCorpus ∧
        evictedEntries 25 exCorpus = evictedEntries 25 exCorpus) :=
  ⟨rfl, rfl, claim_C4 25 25 exCorpus exCorpus rfl rfl⟩

lemma enforceLoopSt_spec (budget : Int) (te : List Entry) :
    ∀ (total : Int) (caller work : List Entry),
      enforceLoopSt budget te total (caller, work) =
        (caller, enforceLoop budget te total work) := by
  induction te with
  | nil =>
    intro total caller work
    rfl
  | cons e rest ih =>
    intro total caller work
    rw [enforceLoopSt, enforceLoop]
    by_cases h : total ≤ budget
    · rw [if_pos h, if_pos h]
    · rw [if_neg h, if_neg h]
      exact ih _ _ _

/-- C8: the enforcer acts only on the private copy: the caller's mapping
comes back untouched, and the trimmed result agrees with the functional
enforcer. -/
theorem claim_C8 (budget : Int) (d : List Entry) :
    (enforceSt budget d).1 = d ∧
      (enforceSt budget d).2 = enforce_site_data_limit budget d := by
  rw [enforceSt, enforce_site_data_limit]
  by_cases h : (dictStrLen d : Int) > budget
  · rw [if_pos h, if_pos h, enforceLoopSt_spec]
    exact ⟨rfl, rfl⟩
  · rw [if_neg h, if_neg h]
    exact ⟨rfl, rfl⟩

/-- Witness for C8 at a concrete over-budget corpus. -/
theorem claim_C8_witness :
    (enforceSt 25 exCorpus).1 = exCorpus ∧
      (enforceSt 25 exCorpus).2 = enforce_site_data_limit 25 exCorpus :=
  claim_C8 25 exCorpus

lemma textLenSum_nil : textLenSum [] = 0 := rfl

lemma textLenSum_cons (e : Entry) (l : List Entry) :
    textLenSum (e :: l) = e.2.length + textLenSum l := by
  simp [textLenSum]

lemma pairwise_insertByLen (x : Entry) (l : List Entry)
    (h : l.Pairwise (fun a b => b.2.length ≤ a.2.length)) :
    (insertByLen x l).Pairwise (fun a b => b.2.length ≤ a.2.length) := by
  induction l with
  | nil => simp [insertByLen]
  | cons y ys ih =>
    rw [insertByLen]
    rw [List.pairwise_cons] at h
    by_cases hx : x.2.length < y.2.length
    · rw [if_pos hx]
      rw [List.pairwise_cons]
      constructor
      · intro z hz
        rcases List.mem_cons.mp ((insertByLen_perm x ys).mem_iff.mp hz) with rfl | hzys
        · exact Nat.le_of_lt hx
        · exact h.1 z hzys
      · exact ih h.2
    · rw [if_neg hx]
      rw [List.pairwise_cons]
      constructor
      · intro z hz
        rcases List.mem_cons.mp hz with rfl | hzys
        · exact Nat.le_of_not_lt hx
        · exact Nat.le_trans (h.1 z hzys) (Nat.le_of_not_lt hx)
      · rw [List.pairwise_cons]
        exact ⟨h.1, h.2⟩

lemma sortByLenDesc_pairwise (l : List Entry) :
    (sortByLenDesc l).Pairwise (fun a b => b.2.length ≤ a.2.length) := by
  induction l with
  | nil => simp [sortByLenDesc]
  | cons e es ih =>
    rw [sortByLenDesc]
    exact pairwise_insertByLen e _ ih

lemma evictSeq_eq_take (budget : Int) (te : List Entry) :
    ∀ total : Int, ∃ m, evictSeq budget te total = te.take m := by
  induction te with
  | nil =>
    intro total
    exact ⟨0, rfl⟩
  | cons e rest ih =>
    intro total
    rw [evictSeq]
    by_cases h : total ≤ budget
    · rw [if_pos h]
      exact ⟨0, rfl⟩
    · rw [if_neg h]
      obtain ⟨m, hm⟩ := ih (total - e.2.length)
      exact ⟨m + 1, by rw [hm]; rfl⟩

lemma evictSeq_take_gt (budget : Int) (te : List Entry) :
    ∀ (total : Int) (m : Nat), m < (evictSeq budget te total).length →
      total - (textLenSum ((evictSeq budget te total).take m) : Int) > budget := by
  induction te with
  | nil =>
    intro total m hm
    rw [evictSeq] at hm
    simp at hm
  | cons e rest ih =>
    intro total m hm
    rw [evictSeq] at hm ⊢
    by_cases h : total ≤ budget
    · rw [if_pos h] at hm
      simp at hm
    · rw [if_neg h] at hm ⊢
      cases m with
      | zero =>
        rw [List.take_zero, textLenSum_nil]
        push_cast
        omega
      | succ m =>
        simp only [List.length_cons, Nat.succ_lt_succ_iff] at hm
        have hrec := ih (total - e.2.length) m hm
        rw [List.take_succ_cons, textLenSum_cons]
        push_cast
        push_cast at hrec
        omega

lemma evictSeq_ne_imp_le (budget : Int) (te : List Entry) :
    ∀ total : Int, evictSeq budget te total ≠ te →
      total - (textLenSum (evictSeq budget te total) : Int) ≤ budget := by
  induction te with
  | nil =>
    intro total h
    rw [evictSeq] at h
    exact absurd rfl h
  | cons e rest ih =>
    intro total h
    rw [evictSeq] at h ⊢
    by_cases hb : total ≤ budget
    · rw [if_pos hb]
      rw [textLenSum_nil]
      push_cast
      omega
    · rw [if_neg hb] at h ⊢
      have hne : evictSeq budget rest (total - e.2.length) ≠ rest :=
        fun hc => h (by rw [hc])
      have hrec := ih (total - e.2.length) hne
      rw [textLenSum_cons]
      push_cast
      push_cast at hrec
      omega

lemma enforceLoop_eq_foldl (budget : Int) (te : List Entry) :
    ∀ (total : Int) (d : List Entry),
      enforceLoop budget te total d =
        (evictSeq budget te total).foldl (fun acc x => delKey acc x.1) d := by
  induction te with
  | nil =>
    intro total d
    rfl
  | cons e rest ih =>
    intro total d
    rw [enforceLoop, evictSeq]
    by_cases h : total ≤ budget
    · rw [if_pos h, if_pos h]
      rfl
    · rw [if_neg h, if_neg h, List.foldl_cons]
      exact ih _ _

/-- C3: the eviction sequence is a prefix of the length-descending sort of
the items (whole entries, longest first, in non-increasing length order);
before every eviction the running total still exceeded the budget; when the
loop stops before exhausting the corpus the running total is at or under
budget; and the enforcement result is the corpus after exactly those
deletions in that order. -/
theorem claim_C3 (budget : Int) (d : List Entry) :
    (∃ m, evictedEntries budget d = (sortByLenDesc d).take m) ∧
    (evictedEntries budget d).Pairwise (fun a b => b.2.length ≤ a.2.length) ∧
    (∀ m, m < (evictedEntries budget d).length →
      (dictStrLen d : Int) - (textLenSum ((evictedEntries budget d).take m) : Int) >
        budget) ∧
    (evictedEntries budget d ≠ sortByLenDesc d →
      (dictStrLen d : Int) - (textLenSum (evictedEntries budget d) : Int) ≤ budget) ∧
    enforce_site_data_limit budget d =
      (evictedEntries budget d).foldl (fun acc x => delKey acc x.1) d := by
  rw [evictedEntries, enforce_site_data_limit]
  by_cases h : (dictStrLen d : Int) > budget
  · rw [if_pos h, if_pos h]
    refine ⟨evictSeq_eq_take budget _ _, ?_, evictSeq_take_gt budget _ _,
      evictSeq_ne_imp_le budget _ _, enforceLoop_eq_foldl budget _ _ _⟩
    obtain ⟨m, hm⟩ := evictSeq_eq_take budget (sortByLenDesc d) (dictStrLen d : Int)
    rw [hm]
    exact List.Pairwise.sublist (List.take_sublist m _) (sortByLenDesc_pairwise d)
  · rw [if_neg h, if_neg h]
    refine ⟨⟨0, rfl⟩, List.Pairwise.nil, ?_, ?_, rfl⟩
    · intro m hm
      simp at hm
    · intro _
      rw [textLenSum_nil]
      push_cast
      omega

/-- Witness for C3: the enforcement result on a concrete over-budget corpus
is exactly the corpus after the evicted entries are deleted in order. -/
theorem claim_C3_witness :
    enforce_site_data_limit 25 exCorpus =
      (evictedEntries 25 exCorpus).foldl (fun acc x => delKey acc x.1) exCorpus :=
  (claim_C3 25 exCorpus).2.2.2.2

lemma filter_insertByLen_pos (x : Entry) (l : List Entry) (k : Nat)
    (hx : x.2.length = k) :
    (insertByLen x l).filter (fun e => e.2.length == k) =
      x :: l.filter (fun e => e.2.length == k) := by
  induction l with
  | nil => simp [insertByLen, hx]
  | cons y ys ih =>
    rw [insertByLen]
    by_cases hy : x.2.length < y.2.length
    · rw [if_pos hy]
      have hyk : (y.2.length == k) = false := by
        simp only [beq_eq_false_iff_ne, ne_eq]
        omega
      simp only [List.filter_cons, hyk, ih, if_false]
      rfl
    · rw [if_neg hy]
      have hxk : (x.2.length == k) = true := by simp [hx]
      simp only [List.filter_cons, hxk, if_true]

lemma filter_insertByLen_neg (x : Entry) (l : List Entry) (k : Nat)
    (hx : ¬ x.2.length = k) :
    (insertByLen x l).filter (fun e => e.2.length == k) =
      l.filter (fun e => e.2.length == k) := by
  have hxk : (x.2.length == k) = false := by simp [hx]
  induction l with
  | nil => simp [insertByLen, hxk]
  | cons y ys ih =>
    rw [insertByLen]
    by_cases hy : x.2.length < y.2.length
    · rw [if_pos hy]
      simp only [List.filter_cons, ih]
    · rw [if_neg hy]
      simp [List.filter_cons, hxk]

lemma filter_sortByLenDesc (d : List Entry) (k : Nat) :
    (sortByLenDesc d).filter (fun e => e.2.length == k) =
      d.filter (fun e => e.2.length == k) := by
  induction d with
  | nil => rfl
  | cons e es ih =>
    rw [sortByLenDesc]
    by_cases he : e.2.length = k
    · rw [filter_insertByLen_pos e _ k he, ih, List.filter_cons]
      simp [he]
    · rw [filter_insertByLen_neg e _ k he, ih, List.filter_cons]
      simp [he]

lemma filter_take_ex (l : List Entry) (p : Entry → Bool) :
    ∀ m : Nat, ∃ j, (l.take m).filter p = (l.filter p).take j := by
  induction l with
  | nil =>
    intro m
    exact ⟨0, by simp⟩
  | cons a l ih =>
    intro m
    cases m with
    | zero => exact ⟨0, by simp⟩
    | succ m =>
      obtain ⟨j, hj⟩ := ih m
      rw [List.take_succ_cons]
      cases hpa : p a with
      | true =>
        refine ⟨j + 1, ?_⟩
        simp only [List.filter_cons, hpa, if_true, List.take_succ_cons, hj]
      | false =>
        refine ⟨j, ?_⟩
        simp [List.filter_cons, hpa, hj]

/-- C9: the descending-length sort is stable, so among entries of equal
text length the sort keeps the original insertion order, and the evicted
equal-length entries form a prefix of the equal-length entries in insertion
order: first inserted is evicted first. -/
theorem claim_C9 (budget : Int) (d : List Entry) (k : Nat) :
    (sortByLenDesc d).filter (fun e => e.2.length == k) =
      d.filter (fun e => e.2.length == k) ∧
    ∃ m, (evictedEntries budget d).filter (fun e => e.2.length == k) =
      (d.filter (fun e => e.2.length == k)).take m := by
  refine ⟨filter_sortByLenDesc d k, ?_⟩
  have hev : ∃ m, evictedEntries budget d = (sortByLenDesc d).take m := by
    rw [evictedEntries]
    by_cases h : (dictStrLen d : Int) > budget
    · rw [if_pos h]
      exact evictSeq_eq_take budget _ _
    · rw [if_neg h]
      exact ⟨0, rfl⟩
  obtain ⟨m, hm⟩ := hev
  rw [hm]
  obtain ⟨j, hj⟩ := filter_take_ex (sortByLenDesc d) (fun e => e.2.length == k) m
  rw [hj, filter_sortByLenDesc d k]
  exact ⟨j, rfl⟩

/-- Example corpus with a length tie between its first two entries. -/
def dTie : List Entry := [("a", "xx"), ("b", "yy"), ("c", "z")]

/-- Witness for C9: on a corpus with an equal-length tie, sorting keeps the
tied entries in insertion order. -/
theorem claim_C9_witness :
    (sortByLenDesc dTie).filter (fun e => e.2.length == 2) =
      dTie.filter (fun e => e.2.length == 2) :=
  (claim_C9 5 dTie 2).1

end WebPageAI
